import Mathlib

/-!
Shallow embedding of `macs_differs.py`: three counters for integer depth
sequences ("keys") under lock-keying constraints (MACS adjacency bound,
per-depth frequency cap, no three consecutive equal depths).
-/

/-- The MACS adjacency check `abs(i - j) <= macs` between two depths. -/
def adjOK (macs : ℤ) (a b : ℕ) : Bool := decide (|(a : ℤ) - (b : ℤ)| ≤ macs)

/-- The frequency check of `brute`'s `good`: every depth occurring in `t`
occurs at most `n / 2` times under real division, i.e. `2 * count ≤ n`.
(`good` builds a dict of frequencies keyed by the distinct values of `t`
and requires each value `f` to satisfy `¬(f > n / 2)`.) -/
def freqOk (n : ℕ) (t : List ℕ) : Bool :=
  t.dedup.all (fun k => decide (2 * t.count k ≤ n))

/-- The adjacent-pair check of `brute`'s `good`: every adjacent pair of `t`
differs by at most `macs`. -/
def macsOk (macs : ℤ) : List ℕ → Bool
  | a :: b :: rest => adjOK macs a b && macsOk macs (b :: rest)
  | _ => true

/-- The run-length check of `brute`'s `good`: no three consecutive equal
values in `t`. -/
def noTriple : List ℕ → Bool
  | a :: b :: c :: rest =>
      !(decide (a = b) && decide (b = c)) && noTriple (b :: c :: rest)
  | _ => true

/-- The predicate `good` of `brute`: frequencies, adjacent pairs, triples. -/
def good (n : ℕ) (macs : ℤ) (t : List ℕ) : Bool :=
  freqOk n t && macsOk macs t && noTriple t

/-- `itertools.product(range(d), repeat=n)`: all length-`n` lists over
`[0, d)`, in lexicographic order. -/
def tuples (d : ℕ) : ℕ → List (List ℕ)
  | 0 => [[]]
  | n + 1 => (tuples d n).flatMap (fun t => (List.range d).map (fun b => t ++ [b]))

/-- `brute(n, d, macs)`: count the members of the full Cartesian product
that satisfy `good`. -/
def brute (n d : ℕ) (macs : ℤ) : ℕ := (tuples d n).countP (good n macs)

/-- The adjacency matrix `A` of `count_keys`: entry `(i, j)` is 1 if
`|i - j| ≤ macs`, else 0. -/
def matA (macs : ℤ) : ℕ → ℕ → ℕ := fun i j => if adjOK macs i j then 1 else 0

/-- Matrix multiplication of `d × d` matrices given as functions. -/
def matMul (d : ℕ) (A B : ℕ → ℕ → ℕ) : ℕ → ℕ → ℕ :=
  fun i j => ((List.range d).map (fun l => A i l * B l j)).sum

/-- `np.linalg.matrix_power`: the `k`-th power of a `d × d` matrix. -/
def matPow (d : ℕ) (A : ℕ → ℕ → ℕ) : ℕ → ℕ → ℕ → ℕ
  | 0 => fun i j => if i = j then 1 else 0
  | k + 1 => matMul d (matPow d A k) A

/-- `count_keys(n, d, macs)`: 1 for `n = 0`, otherwise the sum of all
entries of `A ^ (n - 1)`. -/
def count_keys (n d : ℕ) (macs : ℤ) : ℕ :=
  if n = 0 then 1
  else ((List.range d).map (fun i =>
        ((List.range d).map (fun j => matPow d (matA macs) (n - 1) i j)).sum)).sum

/-- A node of the state space of `count_keys_macs_and_en1303`: a frequency
table together with the last two depths (`none` before they exist). -/
abbrev KState : Type := List ℕ × (Option ℕ × Option ℕ)

/-- The initial state `((0,) * d, (None, None))`. -/
def initState (d : ℕ) : KState := (List.replicate d 0, (none, none))

/-- The check `d2 is not None and abs(d2 - b) > macs` of `neighbors`,
phrased as the condition for the transition to survive: vacuous when no
last cut exists, otherwise the MACS check against the last cut. -/
def lastAdjOK (macs : ℤ) (o : Option ℕ) (b : ℕ) : Bool :=
  match o with
  | none => true
  | some x => adjOK macs x b

/-- The three per-step checks of `neighbors` for appending depth `b` to a
key in state `s`: no three consecutive equal cuts, MACS between the last
cut and `b`, and the final-length frequency bound `¬(freqs[b] + 1 > n / 2)`
i.e. `2 * (freqs[b] + 1) ≤ n`. -/
def transOK (n : ℕ) (macs : ℤ) (s : KState) (b : ℕ) : Bool :=
  !(decide (s.2.1 = some b) && decide (s.2.2 = some b)) &&
  lastAdjOK macs s.2.2 b &&
  decide (2 * (s.1.getD b 0 + 1) ≤ n)

/-- The successor state of `neighbors`: frequency of `b` bumped by one,
last two depths become `(d2, b)`. -/
def nextState (s : KState) (b : ℕ) : KState :=
  (s.1.set b (s.1.getD b 0 + 1), (s.2.2, some b))

/-- `neighbors(state)`: nothing if the key already has full length `n`,
otherwise the successor for every depth `b < d` passing the three checks. -/
def nbrs (n d : ℕ) (macs : ℤ) (s : KState) : List KState :=
  if s.1.sum = n then []
  else ((List.range d).filter (transOK n macs s)).map (nextState s)

/-- The distinct states reachable after `i` levels of the breadth-first
expansion (the queue `q` of `count_keys_macs_and_en1303`). -/
def levelStates (n d : ℕ) (macs : ℤ) : ℕ → List KState
  | 0 => [initState d]
  | i + 1 => ((levelStates n d macs i).flatMap (nbrs n d macs)).dedup

/-- The path-count table `paths` after `i` levels: each state reachable via
a valid transition accumulates the counts of all its predecessors. -/
def levelPaths (n d : ℕ) (macs : ℤ) : ℕ → KState → ℕ
  | 0 => fun s => if s = initState d then 1 else 0
  | i + 1 => fun v =>
      ((levelStates n d macs i).map
        (fun u => if v ∈ nbrs n d macs u then levelPaths n d macs i u else 0)).sum

/-- `count_keys_macs_and_en1303(n, d, macs)`: run `n` expansion levels and
sum the path counts of all surviving states, `sum(paths.values())`. -/
def count_keys_macs_and_en1303 (n d : ℕ) (macs : ℤ) : ℕ :=
  ((levelStates n d macs n).map (levelPaths n d macs n)).sum

/-- The state of a concrete partial key `t`: frequency of each depth
`k < d`, and the last two elements of `t`. -/
def stateOf (d : ℕ) (t : List ℕ) : KState :=
  ((List.range d).map (fun k => t.count k), (t.dropLast.getLast?, t.getLast?))

/-! ### Generic counting helpers -/

lemma sum_map_single {β : Type} [DecidableEq β] (keys : List β) (hnd : keys.Nodup)
    (c : β) (hc : c ∈ keys) (f : β → ℕ) :
    (keys.map (fun u => if c = u then f u else 0)).sum = f c := by
  induction keys with
  | nil => cases hc
  | cons k keys ih =>
    rcases List.nodup_cons.mp hnd with ⟨hk, hnd'⟩
    rcases List.mem_cons.mp hc with h | h
    · subst h
      have h0 : (keys.map (fun u => if c = u then f u else 0)).sum = 0 := by
        apply List.sum_eq_zero
        intro x hx
        rcases List.mem_map.mp hx with ⟨u, hu, rfl⟩
        have hcu : c ≠ u := fun he => hk (he ▸ hu)
        simp [hcu]
      simp [h0]
    · have hck : c ≠ k := fun he => hk (he ▸ h)
      simp [hck, ih hnd' h]

lemma countP_eq_sum_map_ite {α : Type} (l : List α) (p : α → Bool) :
    l.countP p = (l.map (fun a => if p a = true then 1 else 0)).sum := by
  induction l with
  | nil => simp
  | cons a l ih => simp [List.countP_cons, ih, Nat.add_comm]

lemma sum_map_key_partition {α β : Type} [DecidableEq β] (l : List α) (p : α → Bool)
    (key : α → β) (f : β → ℕ) (keys : List β) (hnd : keys.Nodup)
    (hcov : ∀ a ∈ l, p a = true → key a ∈ keys) :
    (l.map (fun a => if p a = true then f (key a) else 0)).sum
      = (keys.map (fun u => f u * l.countP (fun a => p a && decide (key a = u)))).sum := by
  induction l with
  | nil => simp
  | cons a l ih =>
    have hcov' : ∀ x ∈ l, p x = true → key x ∈ keys :=
      fun x hx => hcov x (List.mem_cons_of_mem a hx)
    have expand : (keys.map
          (fun u => f u * (a :: l).countP (fun x => p x && decide (key x = u)))).sum
        = (keys.map (fun u => f u * l.countP (fun x => p x && decide (key x = u)))).sum
          + (keys.map
              (fun u => f u * (if (p a && decide (key a = u)) = true then 1 else 0))).sum := by
      rw [← List.sum_map_add]
      apply congrArg
      apply List.map_congr_left
      intro u _
      rw [List.countP_cons, Nat.mul_add]
    have hsingle : (keys.map
          (fun u => f u * (if (p a && decide (key a = u)) = true then 1 else 0))).sum
        = if p a = true then f (key a) else 0 := by
      by_cases hp : p a = true
      · have hpt : ∀ u ∈ keys,
            f u * (if (p a && decide (key a = u)) = true then 1 else 0)
              = if key a = u then f u else 0 := by
          intro u _
          by_cases hk : key a = u
          · simp [hp, hk]
          · simp [hp, hk]
        rw [List.map_congr_left hpt,
          sum_map_single keys hnd (key a) (hcov a (List.mem_cons_self a l) hp) f, if_pos hp]
      · rw [if_neg hp]
        apply List.sum_eq_zero
        intro x hx
        rcases List.mem_map.mp hx with ⟨u, _, rfl⟩
        simp only [Bool.not_eq_true] at hp
        simp [hp]
    rw [List.map_cons, List.sum_cons, ih hcov', expand, hsingle, Nat.add_comm]

lemma countP_key_partition {α β : Type} [DecidableEq β] (l : List α) (p : α → Bool)
    (key : α → β) (keys : List β) (hnd : keys.Nodup)
    (hcov : ∀ a ∈ l, p a = true → key a ∈ keys) :
    l.countP p
      = (keys.map (fun u => l.countP (fun a => p a && decide (key a = u)))).sum := by
  rw [countP_eq_sum_map_ite]
  simpa using sum_map_key_partition l p key (fun _ => 1) keys hnd hcov

lemma countP_eq_ite_mem {α : Type} [DecidableEq α] (l : List α) (hnd : l.Nodup) (v : α) :
    l.countP (fun x => decide (x = v)) = if v ∈ l then 1 else 0 := by
  induction l with
  | nil => simp
  | cons a l ih =>
    rcases List.nodup_cons.mp hnd with ⟨ha, hnd'⟩
    by_cases hv : a = v
    · subst hv
      have h0 : l.countP (fun x => decide (x = a)) = 0 :=
        List.countP_eq_zero.mpr (fun x hx => by
          simp only [decide_eq_true_eq]
          exact fun he => ha (he ▸ hx))
      simp [List.countP_cons, h0]
    · have hva : ¬v = a := fun h => hv h.symm
      rw [List.countP_cons, ih hnd']
      simp [List.mem_cons, hva, hv]

/-! ### Decomposing the predicate of `brute` over a final element -/

lemma freqOk_iff (n : ℕ) (t : List ℕ) :
    freqOk n t = true ↔ ∀ k ∈ t, 2 * t.count k ≤ n := by
  simp [freqOk, List.all_eq_true, List.mem_dedup]

lemma count_snoc (t : List ℕ) (b k : ℕ) :
    (t ++ [b]).count k = t.count k + if b = k then 1 else 0 := by
  simp [List.count_append, List.count_cons]

lemma freqOk_snoc (n : ℕ) (t : List ℕ) (b : ℕ) :
    freqOk n (t ++ [b]) = (freqOk n t && decide (2 * (t.count b + 1) ≤ n)) := by
  rw [Bool.eq_iff_iff]
  simp only [Bool.and_eq_true, decide_eq_true_eq, freqOk_iff]
  constructor
  · intro h
    refine ⟨fun k hk => ?_, ?_⟩
    · have := h k (List.mem_append.mpr (Or.inl hk))
      rw [count_snoc] at this
      omega
    · have := h b (List.mem_append.mpr (Or.inr (List.mem_singleton.mpr rfl)))
      rw [count_snoc, if_pos rfl] at this
      omega
  · rintro ⟨h1, h2⟩ k hk
    rw [count_snoc]
    by_cases hbk : b = k
    · subst hbk
      simpa using h2
    · rcases List.mem_append.mp hk with hk | hk
      · have := h1 k hk
        simp only [if_neg hbk]
        omega
      · exact absurd (List.mem_singleton.mp hk).symm hbk

lemma macsOk_snoc (macs : ℤ) (t : List ℕ) (b : ℕ) :
    macsOk macs (t ++ [b]) = (macsOk macs t && lastAdjOK macs t.getLast? b) := by
  induction t with
  | nil => rfl
  | cons a t ih =>
    cases t with
    | nil => simp [macsOk, lastAdjOK]
    | cons c r =>
      simp only [List.cons_append] at ih ⊢
      rw [show macsOk macs (a :: c :: (r ++ [b]))
            = (adjOK macs a c && macsOk macs (c :: (r ++ [b]))) from rfl, ih]
      rw [show macsOk macs (a :: c :: r)
            = (adjOK macs a c && macsOk macs (c :: r)) from rfl]
      rw [List.getLast?_cons_cons, Bool.and_assoc]

lemma noTriple_snoc (t : List ℕ) (b : ℕ) :
    noTriple (t ++ [b])
      = (noTriple t
          && !(decide (t.dropLast.getLast? = some b) && decide (t.getLast? = some b))) := by
  induction t with
  | nil => rfl
  | cons a t ih =>
    cases t with
    | nil => rfl
    | cons c r =>
      cases r with
      | nil =>
        by_cases hcb : c = b
        · subst hcb
          simp [noTriple, List.dropLast]
        · simp [noTriple, List.dropLast, hcb]
      | cons e r' =>
        simp only [List.cons_append] at ih ⊢
        rw [show noTriple (a :: c :: e :: (r' ++ [b]))
              = (!(decide (a = c) && decide (c = e))
                  && noTriple (c :: e :: (r' ++ [b]))) from rfl, ih]
        rw [show noTriple (a :: c :: e :: r')
              = (!(decide (a = c) && decide (c = e)) && noTriple (c :: e :: r')) from rfl]
        have h1 : (a :: c :: e :: r').getLast? = (c :: e :: r').getLast? :=
          List.getLast?_cons_cons
        have h2 : (a :: c :: e :: r').dropLast.getLast? = (c :: e :: r').dropLast.getLast? := by
          rw [show (a :: c :: e :: r').dropLast = a :: c :: (e :: r').dropLast from rfl,
            show (c :: e :: r').dropLast = c :: (e :: r').dropLast from rfl,
            List.getLast?_cons_cons]
        rw [h1, h2, Bool.and_assoc]

/-! ### The state of a partial key -/

lemma getD_map_range {d b : ℕ} (f : ℕ → ℕ) (hb : b < d) :
    ((List.range d).map f).getD b 0 = f b := by
  rw [List.getD_eq_getElem?_getD, List.getElem?_map, List.getElem?_range hb]
  rfl

lemma stateOf_fst_getD {d : ℕ} (t : List ℕ) {b : ℕ} (hb : b < d) :
    (stateOf d t).1.getD b 0 = t.count b := getD_map_range _ hb

lemma stateOf_nil (d : ℕ) : stateOf d [] = initState d := by
  unfold stateOf initState
  refine Prod.ext ?_ rfl
  simp [List.map_const']

lemma good_nil (n : ℕ) (macs : ℤ) : good n macs [] = true := rfl

lemma stateOf_snoc {d : ℕ} (t : List ℕ) {b : ℕ} (hb : b < d) :
    stateOf d (t ++ [b]) = nextState (stateOf d t) b := by
  unfold nextState
  rw [stateOf_fst_getD t hb]
  unfold stateOf
  refine Prod.ext ?_ ?_
  · apply List.ext_getElem
    · simp
    · intro k hk1 hk2
      have hkd : k < d := by simpa using hk1
      rw [List.getElem_set]
      simp only [List.getElem_map, List.getElem_range]
      rw [count_snoc]
      by_cases hbk : b = k
      · subst hbk
        simp
      · simp [hbk]
  · simp [List.dropLast_concat, List.getLast?_concat]

lemma good_snoc (n : ℕ) (macs : ℤ) {d : ℕ} (t : List ℕ) {b : ℕ} (hb : b < d) :
    good n macs (t ++ [b]) = (good n macs t && transOK n macs (stateOf d t) b) := by
  unfold good transOK
  rw [freqOk_snoc, macsOk_snoc, noTriple_snoc,
    show (stateOf d t).2.1 = t.dropLast.getLast? from rfl,
    show (stateOf d t).2.2 = t.getLast? from rfl,
    stateOf_fst_getD t hb]
  rw [Bool.eq_iff_iff]
  simp only [Bool.and_eq_true]
  tauto

/-! ### Membership in the Cartesian product -/

lemma mem_tuples_out {d m : ℕ} {t : List ℕ} (h : t ∈ tuples d m) :
    t.length = m ∧ ∀ x ∈ t, x < d := by
  induction m generalizing t with
  | zero =>
    simp only [tuples, List.mem_singleton] at h
    subst h
    simp
  | succ m ih =>
    simp only [tuples, List.mem_flatMap, List.mem_map] at h
    obtain ⟨t', ht', b, hb, rfl⟩ := h
    obtain ⟨hlen, hbound⟩ := ih ht'
    constructor
    · simp [hlen]
    · intro x hx
      rcases List.mem_append.mp hx with hx | hx
      · exact hbound x hx
      · rw [List.mem_singleton.mp hx]
        exact List.mem_range.mp hb

lemma mem_tuples_snoc {d m : ℕ} {t : List ℕ} {b : ℕ}
    (ht : t ∈ tuples d m) (hb : b < d) : t ++ [b] ∈ tuples d (m + 1) := by
  simp only [tuples, List.mem_flatMap, List.mem_map]
  exact ⟨t, ht, b, List.mem_range.mpr hb, rfl⟩

lemma sum_counts_eq_length {d : ℕ} {t : List ℕ} (h : ∀ x ∈ t, x < d) :
    ((List.range d).map (fun k => t.count k)).sum = t.length := by
  induction t with
  | nil => simp
  | cons a t ih =>
    have ha : a < d := h a (List.mem_cons_self a t)
    have h' : ∀ x ∈ t, x < d := fun x hx => h x (List.mem_cons_of_mem a hx)
    have step : ∀ k ∈ List.range d,
        (a :: t).count k = t.count k + if a = k then 1 else 0 := by
      intro k _
      simp [List.count_cons]
    rw [List.map_congr_left step, List.sum_map_add, ih h']
    have hone : ((List.range d).map (fun k => if a = k then 1 else 0)).sum = 1 := by
      simpa using
        sum_map_single (List.range d) (List.nodup_range d) a (List.mem_range.mpr ha)
          (fun _ => 1)
    simp [hone]

lemma stateOf_sum {d : ℕ} {t : List ℕ} (h : ∀ x ∈ t, x < d) :
    (stateOf d t).1.sum = t.length := sum_counts_eq_length h

/-! ### Properties of `neighbors` -/

lemma nbrs_of_sum_ne {n d : ℕ} {macs : ℤ} {s : KState} (hs : s.1.sum ≠ n) :
    nbrs n d macs s = ((List.range d).filter (transOK n macs s)).map (nextState s) := by
  unfold nbrs
  rw [if_neg hs]

lemma nextState_inj (s : KState) {b b' : ℕ} (h : nextState s b = nextState s b') :
    b = b' := by
  have := congrArg (fun v => v.2.2) h
  simpa [nextState] using this

lemma nbrs_nodup (n d : ℕ) (macs : ℤ) (s : KState) : (nbrs n d macs s).Nodup := by
  unfold nbrs
  split
  · exact List.nodup_nil
  · exact List.Nodup.map_on (fun x _ y _ hxy => nextState_inj s hxy)
      ((List.nodup_range d).filter _)

lemma mem_nbrs {n d : ℕ} {macs : ℤ} {s v : KState} (hs : s.1.sum ≠ n) :
    v ∈ nbrs n d macs s
      ↔ ∃ b, b < d ∧ transOK n macs s b = true ∧ nextState s b = v := by
  rw [nbrs_of_sum_ne hs]
  constructor
  · intro hv
    rcases List.mem_map.mp hv with ⟨b, hbf, rfl⟩
    rcases List.mem_filter.mp hbf with ⟨hbr, htr⟩
    exact ⟨b, List.mem_range.mp hbr, htr, rfl⟩
  · rintro ⟨b, hb, htr, rfl⟩
    exact List.mem_map.mpr ⟨b, List.mem_filter.mpr ⟨List.mem_range.mpr hb, htr⟩, rfl⟩

lemma countP_trans_eq_ite {n d : ℕ} {macs : ℤ} {s : KState} (hs : s.1.sum ≠ n)
    (v : KState) :
    (List.range d).countP (fun b => transOK n macs s b && decide (nextState s b = v))
      = if v ∈ nbrs n d macs s then 1 else 0 := by
  have h1 : (List.range d).countP
        (fun b => transOK n macs s b && decide (nextState s b = v))
      = (List.range d).countP
        (fun b => decide (nextState s b = v) && transOK n macs s b) := by
    apply List.countP_congr
    intro b _
    rw [Bool.and_comm]
  have h2 : (List.range d).countP
        (fun b => decide (nextState s b = v) && transOK n macs s b)
      = (((List.range d).filter (transOK n macs s)).map (nextState s)).countP
          (fun x => decide (x = v)) := by
    rw [List.countP_map, List.countP_filter]
    rfl
  rw [h1, h2, ← nbrs_of_sum_ne hs]
  convert countP_eq_ite_mem _ (nbrs_nodup n d macs s) v using 2

lemma levelStates_nodup (n d : ℕ) (macs : ℤ) (i : ℕ) :
    (levelStates n d macs i).Nodup := by
  cases i with
  | zero => simp [levelStates]
  | succ i => exact List.nodup_dedup _

/-! ### The breadth-first invariant: path counts are prefix counts -/

lemma bfs_inv (n d : ℕ) (macs : ℤ) :
    ∀ i, i ≤ n →
      ((∀ v, v ∈ levelStates n d macs i ↔
          ∃ t, t ∈ tuples d i ∧ good n macs t = true ∧ stateOf d t = v) ∧
        (∀ v, levelPaths n d macs i v =
          (tuples d i).countP (fun t => good n macs t && decide (stateOf d t = v)))) := by
  intro i
  induction i with
  | zero =>
    intro _
    constructor
    · intro v
      constructor
      · intro hv
        refine ⟨[], by simp [tuples], good_nil n macs, ?_⟩
        rw [stateOf_nil]
        have : v = initState d := by simpa [levelStates] using hv
        exact this.symm
      · rintro ⟨t, ht, _, rfl⟩
        have ht' : t = [] := by simpa [tuples] using ht
        subst ht'
        simp [levelStates, stateOf_nil]
    · intro v
      simp only [levelPaths, tuples, List.countP_cons, List.countP_nil, good_nil,
        stateOf_nil, Bool.true_and, Nat.zero_add]
      by_cases h : v = initState d
      · subst h
        simp
      · have h2 : ¬initState d = v := fun hh => h hh.symm
        simp [h, h2]
  | succ i ih =>
    intro hin
    have hi_le : i ≤ n := Nat.le_of_succ_le hin
    have hi_lt : i < n := Nat.lt_of_lt_of_le (Nat.lt_succ_self i) hin
    obtain ⟨ihS, ihP⟩ := ih hi_le
    have hsum_ne : ∀ t ∈ tuples d i, (stateOf d t).1.sum ≠ n := by
      intro t ht
      obtain ⟨hlen, hbd⟩ := mem_tuples_out ht
      rw [stateOf_sum hbd, hlen]
      omega
    constructor
    · intro v
      constructor
      · intro hv
        simp only [levelStates] at hv
        rcases List.mem_flatMap.mp (List.mem_dedup.mp hv) with ⟨u, hu, hvn⟩
        rcases (ihS u).mp hu with ⟨t, ht, hgood, rfl⟩
        rcases (mem_nbrs (hsum_ne t ht)).mp hvn with ⟨b, hbd2, htr, rfl⟩
        refine ⟨t ++ [b], mem_tuples_snoc ht hbd2, ?_, stateOf_snoc t hbd2⟩
        rw [good_snoc n macs t hbd2, hgood, htr]
        rfl
      · rintro ⟨t', ht', hgood', rfl⟩
        simp only [tuples, List.mem_flatMap, List.mem_map] at ht'
        rcases ht' with ⟨t, ht, b, hbr, rfl⟩
        have hbd2 : b < d := List.mem_range.mp hbr
        rw [good_snoc n macs t hbd2] at hgood'
        simp only [Bool.and_eq_true] at hgood'
        rcases hgood' with ⟨hgt, htr⟩
        simp only [levelStates]
        apply List.mem_dedup.mpr
        apply List.mem_flatMap.mpr
        refine ⟨stateOf d t, (ihS _).mpr ⟨t, ht, hgt, rfl⟩, ?_⟩
        rw [stateOf_snoc t hbd2]
        exact (mem_nbrs (hsum_ne t ht)).mpr ⟨b, hbd2, htr, rfl⟩
    · intro v
      have lhs_eq : levelPaths n d macs (i + 1) v
          = ((levelStates n d macs i).map
              (fun u => (if v ∈ nbrs n d macs u then 1 else 0)
                * (tuples d i).countP
                    (fun t => good n macs t && decide (stateOf d t = u)))).sum := by
        simp only [levelPaths]
        apply congrArg
        apply List.map_congr_left
        intro u _
        by_cases hvu : v ∈ nbrs n d macs u
        · rw [if_pos hvu, if_pos hvu, ihP u, Nat.one_mul]
        · rw [if_neg hvu, if_neg hvu, Nat.zero_mul]
      have hpoint : ∀ t ∈ tuples d i,
          ((List.range d).map (fun b => t ++ [b])).countP
              (fun tt => good n macs tt && decide (stateOf d tt = v))
            = if good n macs t = true
                then (if v ∈ nbrs n d macs (stateOf d t) then 1 else 0) else 0 := by
        intro t ht
        rw [List.countP_map]
        have hcongr : ∀ b ∈ List.range d,
            ((fun tt => good n macs tt && decide (stateOf d tt = v))
                ∘ (fun b => t ++ [b])) b = true
              ↔ (good n macs t && (transOK n macs (stateOf d t) b
                  && decide (nextState (stateOf d t) b = v))) = true := by
          intro b hbr
          have hbd2 : b < d := List.mem_range.mp hbr
          show (good n macs (t ++ [b]) && decide (stateOf d (t ++ [b]) = v)) = true ↔ _
          rw [good_snoc n macs t hbd2, stateOf_snoc t hbd2, Bool.and_assoc]
        rw [List.countP_congr hcongr]
        by_cases hg : good n macs t = true
        · rw [if_pos hg]
          simp only [hg, Bool.true_and]
          exact countP_trans_eq_ite (hsum_ne t ht) v
        · rw [if_neg hg]
          apply List.countP_eq_zero.mpr
          intro b _
          simp only [Bool.and_eq_true]
          rintro ⟨hgt, -⟩
          exact hg hgt
      have rhs_eq : (tuples d (i + 1)).countP
            (fun t => good n macs t && decide (stateOf d t = v))
          = ((levelStates n d macs i).map
              (fun u => (if v ∈ nbrs n d macs u then 1 else 0)
                * (tuples d i).countP
                    (fun t => good n macs t && decide (stateOf d t = u)))).sum := by
        have hmap : List.map
              (fun t => ((List.range d).map (fun b => t ++ [b])).countP
                (fun tt => good n macs tt && decide (stateOf d tt = v))) (tuples d i)
            = List.map
              (fun t => if good n macs t = true
                then (if v ∈ nbrs n d macs (stateOf d t) then 1 else 0) else 0)
              (tuples d i) :=
          List.map_congr_left hpoint
        rw [show tuples d (i + 1)
              = (tuples d i).flatMap (fun t => (List.range d).map (fun b => t ++ [b]))
            from rfl]
        rw [List.countP_flatMap]
        simp only [Function.comp_def]
        rw [hmap]
        exact sum_map_key_partition (tuples d i) (good n macs) (stateOf d)
          (fun u => if v ∈ nbrs n d macs u then 1 else 0)
          (levelStates n d macs i) (levelStates_nodup n d macs i)
          (fun t ht hg => (ihS _).mpr ⟨t, ht, hg, rfl⟩)
      rw [lhs_eq, rhs_eq]

/-! ### The state-space count equals the brute-force count -/

lemma bfs_eq_brute (n d : ℕ) (macs : ℤ) :
    count_keys_macs_and_en1303 n d macs = brute n d macs := by
  obtain ⟨hS, hP⟩ := bfs_inv n d macs n le_rfl
  have h1 : List.map (levelPaths n d macs n) (levelStates n d macs n)
      = List.map
          (fun v => (tuples d n).countP
            (fun t => good n macs t && decide (stateOf d t = v)))
          (levelStates n d macs n) :=
    List.map_congr_left (fun v _ => hP v)
  unfold count_keys_macs_and_en1303 brute
  rw [h1, ← countP_key_partition (tuples d n) (good n macs) (stateOf d)
    (levelStates n d macs n) (levelStates_nodup n d macs n)
    (fun t ht hg => (hS _).mpr ⟨t, ht, hg, rfl⟩)]

/-! ### Transfer-matrix entries count adjacency-valid sequences -/

lemma head?_snoc {t : List ℕ} (h : t ≠ []) (b : ℕ) : (t ++ [b]).head? = t.head? := by
  cases t with
  | nil => exact absurd rfl h
  | cons a t => rfl

lemma tuples_ne_nil {d k : ℕ} {t : List ℕ} (ht : t ∈ tuples d (k + 1)) : t ≠ [] := by
  intro h
  subst h
  have := (mem_tuples_out ht).1
  simp at this

lemma getLast?_of_mem_tuples {d k : ℕ} {t : List ℕ} (ht : t ∈ tuples d (k + 1)) :
    ∃ x, t.getLast? = some x ∧ x < d := by
  have hne : t ≠ [] := tuples_ne_nil ht
  refine ⟨t.getLast hne, List.getLast?_eq_getLast t hne, ?_⟩
  exact (mem_tuples_out ht).2 _ (List.getLast_mem hne)

lemma countP_single_range {d j : ℕ} (hj : j < d) (g : ℕ → Bool) :
    (List.range d).countP (fun b => g b && decide (b = j))
      = if g j = true then 1 else 0 := by
  have h1 : (List.range d).countP (fun b => g b && decide (b = j))
      = ((List.range d).filter g).countP (fun b => decide (b = j)) := by
    rw [List.countP_filter]
    apply List.countP_congr
    intro b _
    rw [Bool.and_comm]
  rw [h1]
  have h2 := countP_eq_ite_mem ((List.range d).filter g)
    ((List.nodup_range d).filter g) j
  rw [h2]
  by_cases hg : g j = true
  · rw [if_pos hg, if_pos (List.mem_filter.mpr ⟨List.mem_range.mpr hj, hg⟩)]
  · rw [if_neg hg, if_neg (fun hmem => hg (List.mem_filter.mp hmem).2)]

lemma matPow_entry (d : ℕ) (macs : ℤ) :
    ∀ k i j, i < d → j < d →
      matPow d (matA macs) k i j
        = (tuples d (k + 1)).countP
            (fun t => macsOk macs t && decide (t.head? = some i)
              && decide (t.getLast? = some j)) := by
  intro k
  induction k with
  | zero =>
    intro i j hi hj
    have htup : tuples d 1 = (List.range d).map (fun b => [b]) := by
      simp [tuples]
    rw [htup, List.countP_map]
    have hcongr : ∀ b ∈ List.range d,
        ((fun t => macsOk macs t && decide (t.head? = some i)
            && decide (t.getLast? = some j)) ∘ (fun b => [b])) b = true
          ↔ ((fun b => decide (b = i) && decide (b = j)) b) = true := by
      intro b _
      show (macsOk macs [b] && decide (([b] : List ℕ).head? = some i)
          && decide (([b] : List ℕ).getLast? = some j)) = true ↔ _
      simp [macsOk]
    rw [List.countP_congr hcongr,
      show matPow d (matA macs) 0 i j = if i = j then 1 else 0 from rfl]
    by_cases hij : i = j
    · subst hij
      have e1 : List.countP (fun b => decide (b = i) && decide (b = i)) (List.range d)
          = List.countP (fun b => decide (b = i)) (List.range d) :=
        List.countP_congr (fun b _ => by rw [Bool.and_self])
      rw [if_pos rfl, e1, countP_eq_ite_mem _ (List.nodup_range d) i,
        if_pos (List.mem_range.mpr hi)]
    · rw [if_neg hij]
      symm
      apply List.countP_eq_zero.mpr
      intro b _
      simp only [Bool.and_eq_true, decide_eq_true_eq]
      rintro ⟨rfl, rfl⟩
      exact hij rfl
  | succ k ih =>
    intro i j hi hj
    have hpoint : ∀ t ∈ tuples d (k + 1),
        ((List.range d).map (fun b => t ++ [b])).countP
            (fun tt => macsOk macs tt && decide (tt.head? = some i)
              && decide (tt.getLast? = some j))
          = if (macsOk macs t && decide (t.head? = some i)) = true
              then (if lastAdjOK macs t.getLast? j = true then 1 else 0) else 0 := by
      intro t ht
      have hne : t ≠ [] := tuples_ne_nil ht
      rw [List.countP_map]
      have hcongr : ∀ b ∈ List.range d,
          ((fun tt => macsOk macs tt && decide (tt.head? = some i)
              && decide (tt.getLast? = some j)) ∘ (fun b => t ++ [b])) b = true
            ↔ ((macsOk macs t && decide (t.head? = some i))
                && (lastAdjOK macs t.getLast? b && decide (b = j))) = true := by
        intro b _
        show (macsOk macs (t ++ [b]) && decide ((t ++ [b]).head? = some i)
            && decide ((t ++ [b]).getLast? = some j)) = true ↔ _
        rw [macsOk_snoc, head?_snoc hne, List.getLast?_concat]
        simp only [Bool.and_eq_true, decide_eq_true_eq, Option.some.injEq]
        tauto
      rw [List.countP_congr hcongr]
      by_cases hq : (macsOk macs t && decide (t.head? = some i)) = true
      · rw [if_pos hq]
        simp only [hq, Bool.true_and]
        exact countP_single_range hj _
      · rw [if_neg hq]
        apply List.countP_eq_zero.mpr
        intro b _ hcontra
        apply hq
        simp only [Bool.and_eq_true] at hcontra ⊢
        exact hcontra.1
    have hmap : List.map
          (fun t => ((List.range d).map (fun b => t ++ [b])).countP
            (fun tt => macsOk macs tt && decide (tt.head? = some i)
              && decide (tt.getLast? = some j))) (tuples d (k + 1))
        = List.map
          (fun t => if (macsOk macs t && decide (t.head? = some i)) = true
            then (if lastAdjOK macs t.getLast? j = true then 1 else 0) else 0)
          (tuples d (k + 1)) :=
      List.map_congr_left hpoint
    have hkeys : ((List.range d).map (fun x => (some x : Option ℕ))).Nodup :=
      List.Nodup.map_on (fun x _ y _ h => Option.some.inj h) (List.nodup_range d)
    have hcov : ∀ t ∈ tuples d (k + 1),
        (macsOk macs t && decide (t.head? = some i)) = true →
          t.getLast? ∈ (List.range d).map (fun x => (some x : Option ℕ)) := by
      intro t ht _
      obtain ⟨x, hx, hxd⟩ := getLast?_of_mem_tuples ht
      rw [hx]
      exact List.mem_map.mpr ⟨x, List.mem_range.mpr hxd, rfl⟩
    have hpart := sum_map_key_partition (tuples d (k + 1))
      (fun t => macsOk macs t && decide (t.head? = some i))
      (fun t => t.getLast?)
      (fun o => if lastAdjOK macs o j = true then 1 else 0)
      ((List.range d).map (fun x => (some x : Option ℕ))) hkeys hcov
    rw [show tuples d (k + 1 + 1)
          = (tuples d (k + 1)).flatMap
              (fun t => (List.range d).map (fun b => t ++ [b])) from rfl,
      List.countP_flatMap]
    simp only [Function.comp_def]
    rw [hmap, hpart, List.map_map]
    show matMul d (matPow d (matA macs) k) (matA macs) i j = _
    unfold matMul
    apply congrArg
    apply List.map_congr_left
    intro l hl
    have hld : l < d := List.mem_range.mp hl
    rw [ih i l hi hld]
    simp only [Function.comp_apply]
    rw [Nat.mul_comm]
    rfl

/-! ### Partitioning sequences by their first and last element -/

/-- All pairs `(some i, some j)` with `i, j < d`, the possible
(head, last) keys of a nonempty sequence over `[0, d)`. -/
def pairKeys (d : ℕ) : List (Option ℕ × Option ℕ) :=
  (List.range d).flatMap
    (fun i => (List.range d).map (fun j => ((some i, some j) : Option ℕ × Option ℕ)))

lemma pairKeys_nodup (d : ℕ) : (pairKeys d).Nodup := by
  unfold pairKeys
  rw [List.nodup_flatMap]
  constructor
  · intro i _
    exact List.Nodup.map_on
      (fun x _ y _ h => by
        have := congrArg Prod.snd h
        simpa using this)
      (List.nodup_range d)
  · have hlt : (List.range d).Pairwise (· ≠ ·) :=
      List.Pairwise.imp (fun h => Nat.ne_of_lt h) (List.pairwise_lt_range d)
    apply List.Pairwise.imp ?_ hlt
    intro i i' hne x hx hx'
    rcases List.mem_map.mp hx with ⟨j, _, rfl⟩
    rcases List.mem_map.mp hx' with ⟨j', _, hj'⟩
    have := congrArg Prod.fst hj'
    simp only [Option.some.injEq] at this
    exact hne this.symm

lemma head?_of_mem_tuples {d k : ℕ} {t : List ℕ} (ht : t ∈ tuples d (k + 1)) :
    ∃ x, t.head? = some x ∧ x < d := by
  have hne : t ≠ [] := tuples_ne_nil ht
  refine ⟨t.head hne, List.head?_eq_head hne, ?_⟩
  exact (mem_tuples_out ht).2 _ (List.head_mem hne)

lemma pair_mem_pairKeys {d k : ℕ} {t : List ℕ} (ht : t ∈ tuples d (k + 1)) :
    ((t.head?, t.getLast?) : Option ℕ × Option ℕ) ∈ pairKeys d := by
  obtain ⟨x, hx, hxd⟩ := head?_of_mem_tuples ht
  obtain ⟨y, hy, hyd⟩ := getLast?_of_mem_tuples ht
  rw [hx, hy]
  unfold pairKeys
  apply List.mem_flatMap.mpr
  exact ⟨x, List.mem_range.mpr hxd,
    List.mem_map.mpr ⟨y, List.mem_range.mpr hyd, rfl⟩⟩

lemma sum_map_flatMap {α β : Type} (l : List α) (f : α → List β) (g : β → ℕ) :
    ((l.flatMap f).map g).sum = (l.map (fun a => ((f a).map g).sum)).sum := by
  rw [List.map_flatMap, List.flatMap_def, List.sum_flatten, List.map_map]
  rfl

/-! ### Monotonicity in `macs` -/

lemma adjOK_mono {m1 m2 : ℤ} (h : m1 ≤ m2) {a b : ℕ}
    (ha : adjOK m1 a b = true) : adjOK m2 a b = true := by
  simp only [adjOK, decide_eq_true_eq] at ha ⊢
  omega

lemma macsOk_mono {m1 m2 : ℤ} (h : m1 ≤ m2) :
    ∀ {t : List ℕ}, macsOk m1 t = true → macsOk m2 t = true := by
  intro t
  induction t with
  | nil => intro _; rfl
  | cons a t ih =>
    cases t with
    | nil => intro _; rfl
    | cons c r =>
      intro ht
      rw [show macsOk m1 (a :: c :: r) = (adjOK m1 a c && macsOk m1 (c :: r)) from rfl,
        Bool.and_eq_true] at ht
      rw [show macsOk m2 (a :: c :: r) = (adjOK m2 a c && macsOk m2 (c :: r)) from rfl,
        adjOK_mono h ht.1, ih ht.2]
      rfl

lemma good_imp_macsOk {n : ℕ} {m : ℤ} {t : List ℕ} (hg : good n m t = true) :
    macsOk m t = true := by
  rw [good, Bool.and_eq_true, Bool.and_eq_true] at hg
  exact hg.1.2

lemma good_mono {m1 m2 : ℤ} (h : m1 ≤ m2) {n : ℕ} {t : List ℕ}
    (hg : good n m1 t = true) : good n m2 t = true := by
  rw [good, Bool.and_eq_true, Bool.and_eq_true] at hg ⊢
  exact ⟨⟨hg.1.1, macsOk_mono h hg.1.2⟩, hg.2⟩

lemma matA_mono {m1 m2 : ℤ} (h : m1 ≤ m2) (l j : ℕ) : matA m1 l j ≤ matA m2 l j := by
  unfold matA
  by_cases h1 : adjOK m1 l j = true
  · rw [if_pos h1, if_pos (adjOK_mono h h1)]
  · rw [if_neg h1]
    exact Nat.zero_le _

lemma matPow_mono {d : ℕ} {m1 m2 : ℤ} (h : m1 ≤ m2) :
    ∀ k i j, matPow d (matA m1) k i j ≤ matPow d (matA m2) k i j := by
  intro k
  induction k with
  | zero => intro i j; exact le_rfl
  | succ k ih =>
    intro i j
    show matMul d (matPow d (matA m1) k) (matA m1) i j
      ≤ matMul d (matPow d (matA m2) k) (matA m2) i j
    unfold matMul
    apply List.sum_le_sum
    intro l _
    exact Nat.mul_le_mul (ih i l) (matA_mono h l j)

lemma count_keys_mono {n d : ℕ} {m1 m2 : ℤ} (h : m1 ≤ m2) :
    count_keys n d m1 ≤ count_keys n d m2 := by
  unfold count_keys
  by_cases hn : n = 0
  · simp [hn]
  · rw [if_neg hn, if_neg hn]
    apply List.sum_le_sum
    intro i _
    apply List.sum_le_sum
    intro j _
    exact matPow_mono h _ i j

lemma brute_mono {n d : ℕ} {m1 m2 : ℤ} (h : m1 ≤ m2) :
    brute n d m1 ≤ brute n d m2 :=
  List.countP_mono_left (fun t _ => good_mono h)

/-! ### The adjacency-only count dominates the constrained count -/

lemma brute_le_count_keys (n d : ℕ) (macs : ℤ) (hn : n ≠ 0) :
    brute n d macs ≤ count_keys n d macs := by
  obtain ⟨k, rfl⟩ : ∃ k, n = k + 1 := ⟨n - 1, (Nat.succ_pred_eq_of_pos (Nat.pos_of_ne_zero hn)).symm⟩
  unfold brute
  rw [countP_key_partition (tuples d (k + 1)) (good (k + 1) macs)
    (fun t => ((t.head?, t.getLast?) : Option ℕ × Option ℕ)) (pairKeys d)
    (pairKeys_nodup d) (fun t ht _ => pair_mem_pairKeys ht)]
  unfold count_keys
  rw [if_neg hn]
  have hsum : ((List.range d).map (fun i =>
        ((List.range d).map (fun j => matPow d (matA macs) (k + 1 - 1) i j)).sum)).sum
      = ((pairKeys d).map (fun o => (tuples d (k + 1)).countP
          (fun t => macsOk macs t && decide (t.head? = o.1)
            && decide (t.getLast? = o.2)))).sum := by
    unfold pairKeys
    rw [sum_map_flatMap]
    apply congrArg
    apply List.map_congr_left
    intro i hi
    rw [List.map_map]
    apply congrArg
    apply List.map_congr_left
    intro j hj
    have := matPow_entry d macs k i j (List.mem_range.mp hi) (List.mem_range.mp hj)
    simp only [Nat.add_sub_cancel]
    rw [this]
    rfl
  rw [hsum]
  apply List.sum_le_sum
  intro o _
  apply List.countP_mono_left
  intro t _ hgt
  simp only [Bool.and_eq_true, decide_eq_true_eq] at hgt ⊢
  rcases hgt with ⟨hg, hpair⟩
  rw [Prod.ext_iff] at hpair
  exact ⟨⟨good_imp_macsOk hg, hpair.1⟩, hpair.2⟩

/-! ### The degenerate single-depth alphabet -/

lemma tuples_one : ∀ n, tuples 1 n = [List.replicate n 0] := by
  intro n
  induction n with
  | zero => rfl
  | succ n ih =>
    show (tuples 1 n).flatMap (fun t => (List.range 1).map (fun b => t ++ [b]))
      = [List.replicate (n + 1) 0]
    rw [ih, List.replicate_succ' n 0]
    rfl

lemma adjOK_self (m : ℤ) (hm : 0 ≤ m) (a : ℕ) : adjOK m a a = true := by
  simp only [adjOK, decide_eq_true_eq, sub_self, abs_zero]
  exact hm

lemma matPow_one (m : ℤ) (hm : 0 ≤ m) : ∀ k, matPow 1 (matA m) k 0 0 = 1 := by
  intro k
  induction k with
  | zero => rfl
  | succ k ih =>
    show matMul 1 (matPow 1 (matA m) k) (matA m) 0 0 = 1
    unfold matMul
    rw [show List.range 1 = [0] from rfl]
    simp only [List.map_cons, List.map_nil, List.sum_cons, List.sum_nil]
    rw [ih]
    simp [matA, adjOK_self m hm]

lemma macsOk_replicate (m : ℤ) (hm : 0 ≤ m) : ∀ n, macsOk m (List.replicate n 0) = true := by
  intro n
  induction n with
  | zero => rfl
  | succ n ih =>
    cases n with
    | zero => rfl
    | succ n' =>
      show macsOk m (0 :: 0 :: List.replicate n' 0) = true
      rw [show macsOk m (0 :: 0 :: List.replicate n' 0)
            = (adjOK m 0 0 && macsOk m (0 :: List.replicate n' 0)) from rfl,
        adjOK_self m hm]
      simpa using ih

lemma good_replicate_false (n : ℕ) (m : ℤ) (hn : n ≠ 0) :
    good n m (List.replicate n 0) = false := by
  have h0 : (0 : ℕ) ∈ List.replicate n 0 := List.mem_replicate.mpr ⟨hn, rfl⟩
  have hc : (List.replicate n 0).count 0 = n := List.count_replicate_self 0 n
  rw [good]
  have hf : freqOk n (List.replicate n 0) = false := by
    rw [Bool.eq_false_iff]
    intro hcontra
    have := (freqOk_iff n _).mp hcontra 0 h0
    rw [hc] at this
    omega
  rw [hf]
  rfl

/-! ### Invariants of the state tables -/

lemma getD_sum_set {l : List ℕ} {b : ℕ} (hb : b < l.length) :
    (l.set b (l.getD b 0 + 1)).sum = l.sum + 1 := by
  induction l generalizing b with
  | nil => simp at hb
  | cons a l ih =>
    cases b with
    | zero =>
      simp only [List.getD_cons_zero, List.set_cons_zero, List.sum_cons]
      omega
    | succ b =>
      have hb' : b < l.length := by simpa using hb
      simp only [List.getD_cons_succ, List.set_cons_succ, List.sum_cons, ih hb']
      omega

lemma levelStates_invariant (n d : ℕ) (macs : ℤ) :
    ∀ i, ∀ s ∈ levelStates n d macs i,
      s.1.length = d ∧ s.1.sum ≤ i ∧ ∀ c ∈ s.1, 2 * c ≤ n := by
  intro i
  induction i with
  | zero =>
    intro s hs
    have hinit : s = initState d := by simpa [levelStates] using hs
    subst hinit
    refine ⟨List.length_replicate d 0, by simp [initState], ?_⟩
    intro c hc
    rw [List.eq_of_mem_replicate hc]
    exact Nat.zero_le _
  | succ i ih =>
    intro s hs
    simp only [levelStates] at hs
    rcases List.mem_flatMap.mp (List.mem_dedup.mp hs) with ⟨u, hu, hsn⟩
    obtain ⟨hlen, hsum, hent⟩ := ih u hu
    rw [nbrs] at hsn
    split at hsn
    · cases hsn
    · rcases List.mem_map.mp hsn with ⟨b, hbf, rfl⟩
      rcases List.mem_filter.mp hbf with ⟨hbr, htr⟩
      have hbd : b < d := List.mem_range.mp hbr
      have hbl : b < u.1.length := by rw [hlen]; exact hbd
      refine ⟨?_, ?_, ?_⟩
      · show (u.1.set b (u.1.getD b 0 + 1)).length = d
        rw [List.length_set, hlen]
      · show (u.1.set b (u.1.getD b 0 + 1)).sum ≤ i + 1
        rw [getD_sum_set hbl]
        omega
      · intro c hc
        rcases List.mem_or_eq_of_mem_set hc with hc | hc
        · exact hent c hc
        · subst hc
          rw [transOK, Bool.and_eq_true, Bool.and_eq_true] at htr
          have := htr.2
          rw [decide_eq_true_eq] at this
          omega

/-! ### Collapse of the expansion -/

lemma levelStates_collapse (n d : ℕ) (macs : ℤ) {i : ℕ}
    (h : levelStates n d macs i = []) :
    ∀ j, i ≤ j → levelStates n d macs j = [] := by
  intro j hij
  induction j with
  | zero =>
    have : i = 0 := Nat.le_zero.mp hij
    exact this ▸ h
  | succ j ihj =>
    by_cases hij' : i ≤ j
    · have hj := ihj hij'
      simp only [levelStates, hj]
      rfl
    · have : i = j + 1 := by omega
      exact this ▸ h

lemma count_of_collapse (n d : ℕ) (macs : ℤ) {i : ℕ}
    (h : levelStates n d macs i = []) (hin : i ≤ n) :
    count_keys_macs_and_en1303 n d macs = 0 := by
  unfold count_keys_macs_and_en1303
  rw [levelStates_collapse n d macs h n hin]
  rfl

lemma count_constrained_zero (d : ℕ) (macs : ℤ) :
    count_keys_macs_and_en1303 0 d macs = 1 := by
  unfold count_keys_macs_and_en1303
  simp [levelStates, levelPaths]

/-! ### Absence of parameter validation -/

lemma adjOK_neg {macs : ℤ} (hm : macs < 0) (a b : ℕ) : adjOK macs a b = false := by
  rw [adjOK, decide_eq_false_iff_not]
  intro hc
  have h0 : (0 : ℤ) ≤ |(a : ℤ) - (b : ℤ)| := abs_nonneg _
  omega

/-! ## The claims -/

/-- Claim C1: for every valid input (`n ≥ 0`, `d ≥ 1`, `macs ≥ 0`) the
state-space engine `count_keys_macs_and_en1303` returns exactly the same
integer as the brute-force oracle `brute`: the per-step transition rule is
an incremental reformulation of the whole-sequence predicate `good`
(frequency of every depth at most `n / 2` under real division, adjacent
pairs within `macs`, no three consecutive equal depths), including the
boundary where a depth's count reaches exactly `n / 2` for even `n`. -/
theorem constrained_eq_brute (n d macs : ℕ) (hd : 1 ≤ d) :
    count_keys_macs_and_en1303 n d (macs : ℤ) = brute n d (macs : ℤ) :=
  bfs_eq_brute n d macs

/-- Witness for C1 at `n = 4`, `d = 3`, `macs = 2`. -/
theorem constrained_eq_brute_witness :
    1 ≤ 3 ∧ count_keys_macs_and_en1303 4 3 ((2 : ℕ) : ℤ) = brute 4 3 ((2 : ℕ) : ℤ) :=
  ⟨by decide, constrained_eq_brute 4 3 2 (by decide)⟩

/-- Claim C2: for `n ≥ 1` and `i, j < d`, entry `(i, j)` of `M ^ (n - 1)`
(with `M` the 0/1 adjacency matrix of `|i - j| ≤ macs`) is the number of
length-`n` depth sequences from `i` to `j` satisfying only the adjacency
constraint, and `count_keys` returns the sum of all entries of
`M ^ (n - 1)`, in exact arbitrary-precision arithmetic. -/
theorem count_keys_transfer_matrix (n d macs i j : ℕ) (hn : 1 ≤ n)
    (hi : i < d) (hj : j < d) :
    matPow d (matA (macs : ℤ)) (n - 1) i j
      = (tuples d n).countP
          (fun t => macsOk (macs : ℤ) t && decide (t.head? = some i)
            && decide (t.getLast? = some j))
    ∧ count_keys n d (macs : ℤ)
      = ((List.range d).map (fun a =>
          ((List.range d).map (fun b => matPow d (matA (macs : ℤ)) (n - 1) a b)).sum)).sum := by
  obtain ⟨k, rfl⟩ : ∃ k, n = k + 1 :=
    ⟨n - 1, (Nat.succ_pred_eq_of_pos hn).symm⟩
  constructor
  · simpa using matPow_entry d macs k i j hi hj
  · unfold count_keys
    rw [if_neg (Nat.succ_ne_zero k)]

/-- Witness for C2 at `n = 2`, `d = 2`, `macs = 1`, `i = 0`, `j = 1`. -/
theorem count_keys_transfer_matrix_witness :
    1 ≤ 2 ∧ 0 < 2 ∧ 1 < 2 ∧
      (matPow 2 (matA ((1 : ℕ) : ℤ)) (2 - 1) 0 1
        = (tuples 2 2).countP
            (fun t => macsOk ((1 : ℕ) : ℤ) t && decide (t.head? = some 0)
              && decide (t.getLast? = some 1))
      ∧ count_keys 2 2 ((1 : ℕ) : ℤ)
        = ((List.range 2).map (fun a =>
            ((List.range 2).map (fun b => matPow 2 (matA ((1 : ℕ) : ℤ)) (2 - 1) a b)).sum)).sum) :=
  ⟨by decide, by decide, by decide,
    count_keys_transfer_matrix 2 2 1 0 1 (by decide) (by decide) (by decide)⟩

/-- Claim C3 counterexample: an invocation with the invalid parameter
`macs = -1` (and valid `n = 2`, `d = 2`) does not fail fast: all three
functions run to completion and return the integer 0, contradicting the
claim that no invocation with an invalid parameter returns an integer. -/
theorem no_validation_counterexample :
    brute 2 2 (-1) = 0 ∧ count_keys 2 2 (-1) = 0
      ∧ count_keys_macs_and_en1303 2 2 (-1) = 0 := by
  refine ⟨by decide, by decide, by decide⟩

/-- Claim C3 amended: the functions perform no parameter validation; for
any invalid `macs < 0` (here at `n = 2`, `d = 2`) each of the three
functions returns the integer 0 normally instead of failing. -/
theorem no_validation_amended (macs : ℤ) (hm : macs < 0) :
    brute 2 2 macs = 0 ∧ count_keys 2 2 macs = 0
      ∧ count_keys_macs_and_en1303 2 2 macs = 0 := by
  have hb : brute 2 2 macs = 0 := by
    unfold brute
    apply List.countP_eq_zero.mpr
    intro t ht hg
    obtain ⟨hlen, -⟩ := mem_tuples_out ht
    obtain ⟨a, b, rfl⟩ := List.length_eq_two.mp hlen
    have hm2 := good_imp_macsOk hg
    rw [show macsOk macs [a, b] = (adjOK macs a b && macsOk macs [b]) from rfl,
      adjOK_neg hm a b] at hm2
    simp at hm2
  refine ⟨hb, ?_, ?_⟩
  · unfold count_keys
    rw [if_neg (by decide)]
    have hA : ∀ i j, matPow 2 (matA macs) 1 i j = 0 := by
      intro i j
      show matMul 2 (matPow 2 (matA macs) 0) (matA macs) i j = 0
      unfold matMul
      apply List.sum_eq_zero
      intro x hx
      rcases List.mem_map.mp hx with ⟨l, _, rfl⟩
      simp [matA, adjOK_neg hm]
    rw [show (2 : ℕ) - 1 = 1 from rfl, show List.range 2 = [0, 1] from rfl]
    simp [hA]
  · rw [bfs_eq_brute]
    exact hb

/-- Witness for the amended C3 at `macs = -1`. -/
theorem no_validation_amended_witness :
    (-1 : ℤ) < 0 ∧ (brute 2 2 (-1) = 0 ∧ count_keys 2 2 (-1) = 0
      ∧ count_keys_macs_and_en1303 2 2 (-1) = 0) :=
  ⟨by decide, no_validation_amended (-1) (by decide)⟩

/-- Claim C4: for every valid input, the adjacency-only count of
`count_keys` is an upper bound on the fully constrained count of
`count_keys_macs_and_en1303`. -/
theorem adjacency_ge_constrained (n d macs : ℕ) (hd : 1 ≤ d) :
    count_keys n d (macs : ℤ) ≥ count_keys_macs_and_en1303 n d (macs : ℤ) := by
  rw [ge_iff_le, bfs_eq_brute]
  by_cases hn : n = 0
  · subst hn
    have h1 : brute 0 d (macs : ℤ) = 1 := by
      unfold brute
      rw [show tuples d 0 = [[]] from rfl]
      simp [good_nil]
    rw [h1]
    exact le_of_eq rfl
  · exact brute_le_count_keys n d (macs : ℤ) hn

/-- Witness for C4 at `n = 3`, `d = 2`, `macs = 1`. -/
theorem adjacency_ge_constrained_witness :
    1 ≤ 2 ∧ count_keys 3 2 ((1 : ℕ) : ℤ) ≥ count_keys_macs_and_en1303 3 2 ((1 : ℕ) : ℤ) :=
  ⟨by decide, adjacency_ge_constrained 3 2 1 (by decide)⟩

/-- Claim C5: for fixed `n`, `d`, both counters are monotonically
non-decreasing in `macs`. -/
theorem counts_mono_in_macs (n d macs1 macs2 : ℕ) (hd : 1 ≤ d) (h : macs1 ≤ macs2) :
    count_keys n d (macs1 : ℤ) ≤ count_keys n d (macs2 : ℤ)
      ∧ count_keys_macs_and_en1303 n d (macs1 : ℤ)
        ≤ count_keys_macs_and_en1303 n d (macs2 : ℤ) := by
  have hz : (macs1 : ℤ) ≤ (macs2 : ℤ) := Int.ofNat_le.mpr h
  refine ⟨count_keys_mono hz, ?_⟩
  rw [bfs_eq_brute, bfs_eq_brute]
  exact brute_mono hz

/-- Witness for C5 at `n = 3`, `d = 3`, `macs1 = 0`, `macs2 = 1`. -/
theorem counts_mono_in_macs_witness :
    1 ≤ 3 ∧ 0 ≤ 1 ∧
      (count_keys 3 3 ((0 : ℕ) : ℤ) ≤ count_keys 3 3 ((1 : ℕ) : ℤ)
        ∧ count_keys_macs_and_en1303 3 3 ((0 : ℕ) : ℤ)
          ≤ count_keys_macs_and_en1303 3 3 ((1 : ℕ) : ℤ)) :=
  ⟨by decide, by decide, counts_mono_in_macs 3 3 0 1 (by decide) (by decide)⟩

/-- Claim C6: for every valid `d ≥ 1` and `macs ≥ 0`, both engines count
exactly one sequence of length 0, the empty sequence. -/
theorem base_case_counts (d macs : ℕ) (hd : 1 ≤ d) :
    count_keys 0 d (macs : ℤ) = 1 ∧ count_keys_macs_and_en1303 0 d (macs : ℤ) = 1 :=
  ⟨rfl, count_constrained_zero d (macs : ℤ)⟩

/-- Witness for C6 at `d = 1`, `macs = 0`. -/
theorem base_case_counts_witness :
    1 ≤ 1 ∧ (count_keys 0 1 ((0 : ℕ) : ℤ) = 1
      ∧ count_keys_macs_and_en1303 0 1 ((0 : ℕ) : ℤ) = 1) :=
  ⟨by decide, base_case_counts 1 0 (by decide)⟩

/-- Claim C7: over the degenerate single-depth alphabet `d = 1`, for every
`n ≥ 1` the constrained count is 0 (the single depth's frequency `n`
exceeds `n / 2`), while the adjacency-only count is 1 (the unique constant
sequence). -/
theorem degenerate_alphabet (n macs : ℕ) (hn : 1 ≤ n) :
    count_keys_macs_and_en1303 n 1 (macs : ℤ) = 0
      ∧ count_keys n 1 (macs : ℤ) = 1 := by
  constructor
  · rw [bfs_eq_brute]
    unfold brute
    rw [tuples_one n]
    have hg := good_replicate_false n (macs : ℤ) (by omega)
    simp [hg]
  · unfold count_keys
    rw [if_neg (by omega), show List.range 1 = [0] from rfl]
    simp only [List.map_cons, List.map_nil, List.sum_cons, List.sum_nil]
    rw [matPow_one (macs : ℤ) (by omega) (n - 1)]
    rfl

/-- Witness for C7 at the boundary `n = 1`, `macs = 0`. -/
theorem degenerate_alphabet_witness :
    1 ≤ 1 ∧ (count_keys_macs_and_en1303 1 1 ((0 : ℕ) : ℤ) = 0
      ∧ count_keys 1 1 ((0 : ℕ) : ℤ) = 1) :=
  ⟨by decide, degenerate_alphabet 1 0 (by decide)⟩

/-- Claim C8: every state present in the path-count table after `i ≤ n`
expansion levels has a frequency table whose entries sum to at most the
partial length `i`, itself at most `n`, and every individual entry `c`
satisfies `c ≤ n / 2` under real division, i.e. `2 * c ≤ n`; every
transition preserves this. -/
theorem state_invariant (n d macs i : ℕ) (hin : i ≤ n) (s : KState)
    (hs : s ∈ levelStates n d (macs : ℤ) i) :
    s.1.sum ≤ i ∧ i ≤ n ∧ ∀ c ∈ s.1, 2 * c ≤ n := by
  obtain ⟨-, hsum, hent⟩ := levelStates_invariant n d (macs : ℤ) i s hs
  exact ⟨hsum, hin, hent⟩

/-- Witness for C8 at `n = 2`, `d = 2`, `macs = 1`, level `i = 1`, state
`([1, 0], (none, some 0))`. -/
theorem state_invariant_witness :
    1 ≤ 2 ∧ (([1, 0], (none, some 0)) : KState) ∈ levelStates 2 2 ((1 : ℕ) : ℤ) 1
      ∧ ((([1, 0], (none, some 0)) : KState).1.sum ≤ 1 ∧ 1 ≤ 2
          ∧ ∀ c ∈ (([1, 0], (none, some 0)) : KState).1, 2 * c ≤ 2) :=
  ⟨by decide, by decide, state_invariant 2 2 1 1 (by decide) _ (by decide)⟩

/-- Claim C9: the expansion runs exactly `n` levels and is total; if no
states survive level `i`, every later level is empty, and if `i ≤ n` the
function returns 0 rather than failing. -/
theorem expansion_collapse (n d macs i j : ℕ) (hij : i ≤ j) (hin : i ≤ n)
    (h : levelStates n d (macs : ℤ) i = []) :
    levelStates n d (macs : ℤ) j = []
      ∧ count_keys_macs_and_en1303 n d (macs : ℤ) = 0 :=
  ⟨levelStates_collapse n d (macs : ℤ) h j hij,
    count_of_collapse n d (macs : ℤ) h hin⟩

/-- Witness for C9 at `n = 3`, `d = 2`, `macs = 1`: level 3 is empty, so is
level 4, and the count is 0. -/
theorem expansion_collapse_witness :
    3 ≤ 4 ∧ 3 ≤ 3 ∧ levelStates 3 2 ((1 : ℕ) : ℤ) 3 = []
      ∧ (levelStates 3 2 ((1 : ℕ) : ℤ) 4 = []
          ∧ count_keys_macs_and_en1303 3 2 ((1 : ℕ) : ℤ) = 0) :=
  ⟨by decide, by decide, by decide,
    expansion_collapse 3 2 1 3 4 (by decide) (by decide) (by decide)⟩

/-- Claim C10: the brute-force oracle counts exactly one sequence of
length 0: the Cartesian product contains only the empty tuple, which the
predicate accepts vacuously. -/
theorem brute_empty_base (d macs : ℕ) (hd : 1 ≤ d) : brute 0 d (macs : ℤ) = 1 := by
  unfold brute
  rw [show tuples d 0 = [[]] from rfl]
  simp [good_nil]

/-- Witness for C10 at `d = 1`, `macs = 0`. -/
theorem brute_empty_base_witness :
    1 ≤ 1 ∧ brute 0 1 ((0 : ℕ) : ℤ) = 1 :=
  ⟨by decide, brute_empty_base 1 0 (by decide)⟩

